import Mathlib

/-!
Verification of the libhedra problem-formulation layer.

This file gives a shallow embedding of the two source headers
`include/hedra/affine_maps_deform.h` and `include/hedra/OffsetMeshTraits.h`
and proves the specified properties of the assembled sparse systems.

Modelling conventions:
* `double` scalars are modelled as `ℚ` (every operation used by the code is
  ring arithmetic: addition, subtraction, multiplication).
* An Eigen sparse matrix built with `setFromTriplets` is modelled by its
  triplet list together with its declared dimensions; the entry at `(r, c)`
  is the sum of the values of all triplets at `(r, c)` (Eigen sums
  duplicates), see `entryOf`.  A sparse matrix–vector product row is the
  corresponding sum over columns, see `matVecRow`.
* `Eigen::MatrixXd V` rows are `Vec3` values; integer matrices with two
  columns (`EF`, `EV`) are lists of pairs; `-1` entries of `EF` mark a
  missing (boundary) face side, so `EF` entries are `Int`.
* The external collaborators (`igl::min_quad_with_fixed_*`) are outside the
  modelled core, exactly as the specification declares them external; the
  raw result of the external solve is therefore a parameter where needed.
-/

/-- One row of an `Eigen::MatrixXd` with three columns. -/
structure Vec3 where
  x : ℚ
  y : ℚ
  z : ℚ
  deriving DecidableEq

/-- Coordinate access `v(k)` for `k = 0, 1, 2`. -/
def vget (v : Vec3) (k : Nat) : ℚ :=
  if k = 0 then v.x else if k = 1 then v.y else v.z

/-- Rowwise difference of two position rows. -/
def vsub (a b : Vec3) : Vec3 :=
  ⟨a.x - b.x, a.y - b.y, a.z - b.z⟩

/-- `squaredNorm()` of a row. -/
def sqnorm (v : Vec3) : ℚ :=
  v.x * v.x + v.y * v.y + v.z * v.z

/-- Default row used for out-of-range accesses (the modelled programs are
only ever run on in-range indices; hypotheses of the theorems keep the
accesses in range where the value matters). -/
def v3zero : Vec3 := ⟨0, 0, 0⟩

/-- An `Eigen::Triplet<double>`: row index, column index, value. -/
structure Triplet where
  row : Nat
  col : Nat
  value : ℚ
  deriving DecidableEq

/-- Entry `(r, c)` of the sparse matrix built from the triplet list `L` by
`setFromTriplets`: duplicate triplets are summed. -/
def entryOf (L : List Triplet) (r c : Nat) : ℚ :=
  ((L.filter (fun t => t.row == r && t.col == c)).map Triplet.value).sum

/-- Row `r` of (matrix from `L`) times the vector `xv`, computed directly
over the stored triplets. -/
def rowApply (L : List Triplet) (xv : Nat → ℚ) (r : Nat) : ℚ :=
  ((L.filter (fun t => t.row == r)).map (fun t => t.value * xv t.col)).sum

/-- Row `r` of (matrix from `L`) times the vector `xv`, computed as the sum
over the `ncols` columns of the matrix; agrees with `rowApply` whenever all
stored columns are `< ncols` (`matVecRow_eq_rowApply`). -/
def matVecRow (L : List Triplet) (ncols : Nat) (xv : Nat → ℚ) (r : Nat) : ℚ :=
  ∑ c ∈ Finset.range ncols, entryOf L r c * xv c

/-! ## affine_maps_deform.h -/

/-- `EdgeVector = V.row(EV(i,1)) - V.row(EV(i,0))` (line 73 of
`affine_maps_deform.h`); the argument `ev` is the pair `(EV(i,0), EV(i,1))`. -/
def edgeVector (V : List Vec3) (ev : Nat × Nat) : Vec3 :=
  vsub (V.getD ev.2 v3zero) (V.getD ev.1 v3zero)

/-- Triplets pushed for one side `j` of edge `i` at row `r` (lines 74-80):
nothing when the face slot is `-1`; otherwise, for every `k < 3`, the map
coefficient `(r, 3*EF(i,j)+k, EdgeVector(k))` and the two vertex
coefficients `(r, 3*D.size()+EV(i,0), -1)`, `(r, 3*D.size()+EV(i,1), 1)`.
Note the vertex triplets are inside the `k` loop in the source, so each is
pushed three times. -/
def sideTriplets (Dsize r : Nat) (f : Int) (v0 v1 : Nat) (e : Vec3) : List Triplet :=
  if f = -1 then []
  else (List.range 3).flatMap (fun k =>
    [⟨r, 3 * f.toNat + k, vget e k⟩,
     ⟨r, 3 * Dsize + v0, -1⟩,
     ⟨r, 3 * Dsize + v1, 1⟩])

/-- The full `CTripletList` of `affine_maps_precompute` (lines 70-84).  The
row counter `CRows` is incremented once per side `j = 0, 1` of every edge
`i` whether or not the face slot exists, so side `j` of edge `i` writes at
row `2*i + j`. -/
def CTripletsOf (V : List Vec3) (Dsize : Nat) (EF : List (Int × Int))
    (EV : List (Nat × Nat)) : List Triplet :=
  (List.range EF.length).flatMap (fun i =>
    sideTriplets Dsize (2 * i) (EF.getD i (-1, -1)).1 (EV.getD i (0, 0)).1
        (EV.getD i (0, 0)).2 (edgeVector V (EV.getD i (0, 0))) ++
      sideTriplets Dsize (2 * i + 1) (EF.getD i (-1, -1)).2 (EV.getD i (0, 0)).1
        (EV.getD i (0, 0)).2 (edgeVector V (EV.getD i (0, 0))))

/-- Final value of the counter `CRows`: `++` once per side of every edge
(line 81 sits outside the `if` of line 75). -/
def CRowsOf (EF : List (Int × Int)) : Nat :=
  EF.foldl (fun acc _ => acc + 1 + 1) 0

/-- Final value of the counter `ERows` starting from `r`: `++` once per
edge whose two face slots are both present (lines 100-110). -/
def bendCount (r : Nat) : List (Int × Int) → Nat
  | [] => r
  | p :: rest =>
    if p.1 = -1 ∨ p.2 = -1 then bendCount r rest else bendCount (r + 1) rest

/-- Bending-energy triplets (lines 100-110), with `r` the running value of
`ERows`: boundary edges are skipped, an interior edge contributes, for
every `k < 3`, `(-1)` on face `EF(i,0)` and `1` on face `EF(i,1)` and
advances the row counter. -/
def bendTriplets (r : Nat) : List (Int × Int) → List Triplet
  | [] => []
  | p :: rest =>
    if p.1 = -1 ∨ p.2 = -1 then bendTriplets r rest
    else ((List.range 3).flatMap (fun k =>
      [⟨r, 3 * p.1.toNat + k, -1⟩, ⟨r, 3 * p.2.toNat + k, 1⟩]))
      ++ bendTriplets (r + 1) rest

/-- The full `ETripletList` (lines 90-110): an identity row for each of the
`3*F.rows()` face-map unknowns followed by the bending rows. -/
def ETripletsOf (Frows : Nat) (EF : List (Int × Int)) : List Triplet :=
  (List.range (3 * Frows)).map (fun i => ⟨i, i, 1⟩) ++ bendTriplets (3 * Frows) EF

/-- The fields of `struct AffineData` filled by `affine_maps_precompute`
(the `igl::min_quad_with_fixed` factorization is external). -/
structure AffineData where
  ERows : Nat
  CRows : Nat
  NumVars : Nat
  ETriplets : List Triplet
  CTriplets : List Triplet
  FSize : Nat
  VSize : Nat

/-- `affine_maps_precompute` (lines 56-120). Only the sizes of `D` and `F`
are read by the function; their contents are not. -/
def affine_maps_precompute (V : List Vec3) (D : List Nat) (F : List (List Nat))
    (EF : List (Int × Int)) (EV : List (Nat × Nat)) : AffineData :=
  { ERows := bendCount (3 * F.length) EF
    CRows := CRowsOf EF
    NumVars := 3 * F.length + V.length
    ETriplets := ETripletsOf F.length EF
    CTriplets := CTripletsOf V D.length EF EV
    FSize := F.length
    VSize := V.length }

/-- Selector for one of the two face slots of an edge: `j = 0` gives
`EF(i,0)`, otherwise `EF(i,1)`. -/
def sideEntry (p : Int × Int) (j : Nat) : Int :=
  if j = 0 then p.1 else p.2

/-- The identity-deformation unknown vector for coordinate axis `a < 3`, in
the layout of the constraint matrix columns: entries `3*f + k` (for
`f < Frows`) hold row `a` of the identity map prescribed to face `f`, and
entry `3*Frows + v` holds coordinate `a` of original vertex `v`. -/
def identityUnknown (V : List Vec3) (Frows : Nat) (a : Nat) : Nat → ℚ :=
  fun n =>
    if n < 3 * Frows then (if n % 3 = a then 1 else 0)
    else vget (V.getD (n - 3 * Frows) v3zero) a

/-- Caller-observable outcome of one call of `affine_maps_deform`
(lines 138-151).  The parameters `A` and `q` are declared `Eigen::MatrixXd`
by value (not references), so the assignments of lines 149-150 write into
local copies that die at return: `callerA`/`callerq` are the caller's
matrices after the call, `localA`/`localq` the discarded locals. -/
structure DeformOutcome where
  callerA : List (List ℚ)
  callerq : List (List ℚ)
  localA : List (List ℚ)
  localq : List (List ℚ)

/-- `affine_maps_deform` (lines 138-151).  `rawResult` stands for the output
of the external `igl::min_quad_with_fixed_solve` call; `A` and `q` are the
caller's argument matrices.  `RawResult.block(0,0,3*FSize,3)` and
`RawResult.block(3*FSize,0,VSize,3)` are the leading `3*FSize` rows and the
following `VSize` rows. -/
def affine_maps_deform (adata : AffineData) (qh q0 : List (List ℚ))
    (rawResult : List (List ℚ)) (A q : List (List ℚ)) : DeformOutcome :=
  { callerA := A
    callerq := q
    localA := (rawResult.drop 0).take (3 * adata.FSize)
    localq := (rawResult.drop (3 * adata.FSize)).take adata.VSize }

/-! ### A concrete mesh: one triangle, three boundary edges -/

/-- Triangle vertex positions. -/
def triV : List Vec3 := [⟨0, 0, 0⟩, ⟨1, 0, 0⟩, ⟨0, 1, 0⟩]

/-- Triangle face degrees. -/
def triD : List Nat := [3]

/-- Triangle face-vertex incidence. -/
def triF : List (List Nat) := [[0, 1, 2]]

/-- Triangle edge-vertex incidence. -/
def triEV : List (Nat × Nat) := [(0, 1), (1, 2), (2, 0)]

/-- Triangle edge-face incidence: every edge has face `0` on one side and a
missing (`-1`) boundary slot on the other. -/
def triEF : List (Int × Int) := [(0, -1), (0, -1), (0, -1)]

/-- One concrete call of `affine_maps_deform` on the triangle data: the
external solver's raw result has `3*FSize + VSize = 6` rows, and the caller
passes empty matrices `A` and `q` to receive the outputs. -/
def deformEvalOutcome : DeformOutcome :=
  affine_maps_deform (affine_maps_precompute triV triD triF triEF triEV) [] []
    [[0, 0, 0], [1, 1, 1], [2, 2, 2], [3, 3, 3], [4, 4, 4], [5, 5, 5]] [] []

/-! ## OffsetMeshTraits.h -/

/-- `OffsetMeshTraits::OffsetType` (line 26). -/
inductive OffsetType
  | VERTEX_OFFSET
  | EDGE_OFFSET
  | FACE_OFFSET
  deriving DecidableEq

/-- The state of a `hedra::optimization::OffsetMeshTraits` object.  Eigen
vectors are lists (a default-constructed vector is the empty list); the
sparse `offsetConstMat` is kept as its triplet list (its dimensions are
`3*EV.rows()` by `xSize`). -/
structure OffsetMeshTraits where
  JERows : List Nat
  JECols : List Nat
  JEVals : List ℚ
  EVec : List ℚ
  xSize : Nat
  JCRows : List Nat
  JCCols : List Nat
  JCVals : List ℚ
  CVec : List ℚ
  VOrig : List Vec3
  F : List (List Nat)
  EV : List (Nat × Nat)
  D : List Nat
  offsetTriplets : List Triplet
  oType : OffsetType
  d : ℚ
  fullSolution : List Vec3

/-- Triplets pushed for edge `i` in `OffsetMeshTraits::init` (lines 72-82):
for every `j < 3`, row `3*i+j` receives `-1` in column `3*EV(i,0)+j`, `1`
in column `3*EV(i,1)+j` and `-origEdge(j)` in column `3*VOrig.rows()+i`. -/
def offsetEdgeTriplets (Vrows i : Nat) (ev : Nat × Nat) (origEdge : Vec3) : List Triplet :=
  (List.range 3).flatMap (fun j =>
    [⟨3 * i + j, 3 * ev.1 + j, -1⟩,
     ⟨3 * i + j, 3 * ev.2 + j, 1⟩,
     ⟨3 * i + j, 3 * Vrows + i, -(vget origEdge j)⟩])

/-- The full `offsetTriList` of `OffsetMeshTraits::init` (lines 70-82);
`origEdge = VOrig.row(EV(i,1)) - VOrig.row(EV(i,0))` (line 73). -/
def offsetTriListOf (VOrig : List Vec3) (EV : List (Nat × Nat)) : List Triplet :=
  (List.range EV.length).flatMap (fun i =>
    offsetEdgeTriplets VOrig.length i (EV.getD i (0, 0))
      (vsub (VOrig.getD (EV.getD i (0, 0)).2 v3zero)
            (VOrig.getD (EV.getD i (0, 0)).1 v3zero)))

/-- `OffsetMeshTraits::init` (lines 47-119).  It stores the mesh, builds the
constant constraint Jacobian (matrix and coordinate form) for every offset
type, and sizes the energy structures only in the `VERTEX_OFFSET` branch
(lines 98-111): `EVec` gets one entry per vertex and the energy Jacobian
pattern is `JERows(3*i+j) = i`, `JECols(3*i+j) = 3*i+j`.  The
`EDGE_OFFSET` and `FACE_OFFSET` branches (lines 113-118) are empty
(`currently not supporting`), so those members keep their default
(zero-size) values and the function returns normally.  Eigen `resize`
leaves coefficients uninitialized; they are modelled as zeros (no theorem
reads a vector before it is overwritten). -/
def OffsetMeshTraits.init (_VOrig : List Vec3) (_D : List Nat) (_F : List (List Nat))
    (_EV : List (Nat × Nat)) (_oType : OffsetType) (_d : ℚ) : OffsetMeshTraits :=
  let tris := offsetTriListOf _VOrig _EV
  { VOrig := _VOrig
    F := _F
    D := _D
    EV := _EV
    oType := _oType
    d := _d
    xSize := 3 * _VOrig.length + _EV.length
    CVec := List.replicate (3 * _EV.length) 0
    offsetTriplets := tris
    JCRows := tris.map Triplet.row
    JCCols := tris.map Triplet.col
    JCVals := tris.map Triplet.value
    EVec := if _oType = OffsetType.VERTEX_OFFSET then List.replicate _VOrig.length 0 else []
    JERows := if _oType = OffsetType.VERTEX_OFFSET then
        (List.range _VOrig.length).flatMap (fun i => List.replicate 3 i) else []
    JECols := if _oType = OffsetType.VERTEX_OFFSET then
        (List.range _VOrig.length).flatMap (fun i => (List.range 3).map (fun j => 3 * i + j))
      else []
    JEVals := if _oType = OffsetType.VERTEX_OFFSET then
        List.replicate (3 * _VOrig.length) 0 else []
    fullSolution := [] }

/-- `OffsetMeshTraits::initial_solution` (lines 122-128): vertex blocks of
the unknown vector are seeded with the original positions, the trailing
per-edge scales with zero. -/
def OffsetMeshTraits.initial_solution (s : OffsetMeshTraits) : List ℚ :=
  (s.VOrig.flatMap (fun v => [v.x, v.y, v.z])) ++ List.replicate s.EV.length 0

/-- `currV` as read from the iterate `x` (lines 140-142 and 159-161):
row `i` is `x.segment(3*i, 3)`. -/
def currVOf (Vrows : Nat) (x : List ℚ) : List Vec3 :=
  (List.range Vrows).map (fun i =>
    ⟨x.getD (3 * i) 0, x.getD (3 * i + 1) 0, x.getD (3 * i + 2) 0⟩)

/-- `OffsetMeshTraits::update_energy` (lines 135-151): in the
`VERTEX_OFFSET` branch `EVec = (VOrig - currV).rowwise().squaredNorm() -
d*d`; otherwise `EVec` is untouched.  (The trailing `isnan` loop only
prints to standard output and changes no state.) -/
def OffsetMeshTraits.update_energy (s : OffsetMeshTraits) (x : List ℚ) : OffsetMeshTraits :=
  let currV := currVOf s.VOrig.length x
  if s.oType = OffsetType.VERTEX_OFFSET then
    { s with EVec := (List.range s.VOrig.length).map (fun i =>
        sqnorm (vsub (s.VOrig.getD i v3zero) (currV.getD i v3zero)) - s.d * s.d) }
  else s

/-- `OffsetMeshTraits::update_jacobian` (lines 155-178): in the
`VERTEX_OFFSET` branch the loop writes `JEVals(3*i+j) = 2*VOrig(i,j)` for
every `i < VOrig.rows()` and `j < 3`, overwriting the whole vector sized
`3*VOrig.rows()` at init; the iterate `x` is copied into `currV`
(lines 159-161) but the formula only reads `VOrig`.  (The trailing `isnan`
loop only prints to standard output and changes no state.) -/
def OffsetMeshTraits.update_jacobian (s : OffsetMeshTraits) (x : List ℚ) : OffsetMeshTraits :=
  if s.oType = OffsetType.VERTEX_OFFSET then
    { s with JEVals := (List.range s.VOrig.length).flatMap (fun i =>
        (List.range 3).map (fun j => 2 * vget (s.VOrig.getD i v3zero) j)) }
  else s

/-- `OffsetMeshTraits::update_constraints` (lines 180-182):
`CVec << offsetConstMat * x`, a matrix-vector product with the constant
`3*EV.rows()` by `xSize` constraint matrix. -/
def OffsetMeshTraits.update_constraints (s : OffsetMeshTraits) (x : List ℚ) : OffsetMeshTraits :=
  { s with
    CVec := (List.range (3 * s.EV.length)).map
      (fun r => matVecRow s.offsetTriplets s.xSize (fun c => x.getD c 0) r) }

/-! ## Helper lemmas on the sparse-matrix semantics -/

theorem entryOf_nil (r c : Nat) : entryOf [] r c = 0 := rfl

theorem entryOf_cons (t : Triplet) (L : List Triplet) (r c : Nat) :
    entryOf (t :: L) r c
      = (if t.row = r ∧ t.col = c then t.value else 0) + entryOf L r c := by
  by_cases h1 : t.row = r <;> by_cases h2 : t.col = c <;>
    simp [entryOf, List.filter_cons, h1, h2]

theorem entryOf_append (L1 L2 : List Triplet) (r c : Nat) :
    entryOf (L1 ++ L2) r c = entryOf L1 r c + entryOf L2 r c := by
  simp [entryOf, List.filter_append]

theorem entryOf_eq_zero (L : List Triplet) (r c : Nat)
    (h : ∀ t ∈ L, t.row ≠ r) : entryOf L r c = 0 := by
  have : L.filter (fun t => t.row == r && t.col == c) = [] := by
    refine List.filter_eq_nil_iff.mpr ?_
    intro t ht
    simp [h t ht]
  simp [entryOf, this]

theorem rowApply_nil (xv : Nat → ℚ) (r : Nat) : rowApply [] xv r = 0 := rfl

theorem rowApply_cons (t : Triplet) (L : List Triplet) (xv : Nat → ℚ) (r : Nat) :
    rowApply (t :: L) xv r
      = (if t.row = r then t.value * xv t.col else 0) + rowApply L xv r := by
  by_cases h1 : t.row = r <;> simp [rowApply, List.filter_cons, h1]

theorem rowApply_cons_eq (t : Triplet) (L : List Triplet) (xv : Nat → ℚ) (r : Nat)
    (h : t.row = r) :
    rowApply (t :: L) xv r = t.value * xv t.col + rowApply L xv r := by
  rw [rowApply_cons, if_pos h]

theorem rowApply_append (L1 L2 : List Triplet) (xv : Nat → ℚ) (r : Nat) :
    rowApply (L1 ++ L2) xv r = rowApply L1 xv r + rowApply L2 xv r := by
  simp [rowApply, List.filter_append]

theorem rowApply_eq_zero (L : List Triplet) (xv : Nat → ℚ) (r : Nat)
    (h : ∀ t ∈ L, t.row ≠ r) : rowApply L xv r = 0 := by
  have : L.filter (fun t => t.row == r) = [] := by
    refine List.filter_eq_nil_iff.mpr ?_
    intro t ht
    simp [h t ht]
  simp [rowApply, this]

theorem matVecRow_eq_rowApply (L : List Triplet) (n : Nat) (xv : Nat → ℚ) (r : Nat)
    (h : ∀ t ∈ L, t.col < n) : matVecRow L n xv r = rowApply L xv r := by
  induction L with
  | nil => simp [matVecRow, rowApply, entryOf]
  | cons t L ih =>
    have hcol : t.col < n := h t (by simp)
    have hrest : ∀ s ∈ L, s.col < n := fun s hs => h s (by simp [hs])
    have hsum : matVecRow (t :: L) n xv r
        = (∑ c ∈ Finset.range n, (if t.row = r ∧ t.col = c then t.value else 0) * xv c)
          + matVecRow L n xv r := by
      simp only [matVecRow, entryOf_cons, add_mul, Finset.sum_add_distrib]
    rw [hsum, ih hrest, rowApply_cons]
    congr 1
    by_cases h1 : t.row = r
    · have : ∀ c ∈ Finset.range n,
          (if t.row = r ∧ t.col = c then t.value else 0) * xv c
            = if t.col = c then t.value * xv c else 0 := by
        intro c _
        by_cases h2 : t.col = c <;> simp [h1, h2]
      rw [Finset.sum_congr rfl this, Finset.sum_ite_eq]
      simp [h1, Finset.mem_range.mpr hcol]
    · simp [h1]

theorem flatMap_range_append (f : Nat → List Triplet) (n : Nat) :
    (List.range (n + 1)).flatMap f = (List.range n).flatMap f ++ f n := by
  rw [List.range_succ, List.flatMap_append]
  simp

theorem rowApply_flatMap_single (f : Nat → List Triplet) (n i r : Nat) (xv : Nat → ℚ)
    (hi : i < n)
    (hrow : ∀ iq, iq < n → iq ≠ i → ∀ t ∈ f iq, t.row ≠ r) :
    rowApply ((List.range n).flatMap f) xv r = rowApply (f i) xv r := by
  induction n with
  | zero => omega
  | succ m ih =>
    rw [flatMap_range_append, rowApply_append]
    rcases Nat.lt_succ_iff_lt_or_eq.mp hi with h | h
    · rw [ih h (fun iq h1 h2 => hrow iq (Nat.lt_succ_of_lt h1) h2)]
      rw [rowApply_eq_zero (f m) xv r (hrow m (Nat.lt_succ_self m) (by omega))]
      ring
    · subst h
      rw [rowApply_eq_zero ((List.range i).flatMap f) xv r, zero_add]
      intro t ht
      rcases List.mem_flatMap.mp ht with ⟨iq, hiq, htq⟩
      exact hrow iq (Nat.lt_succ_of_lt (List.mem_range.mp hiq))
        (by have := List.mem_range.mp hiq; omega) t htq

theorem entryOf_flatMap_single (f : Nat → List Triplet) (n i r c : Nat)
    (hi : i < n)
    (hrow : ∀ iq, iq < n → iq ≠ i → ∀ t ∈ f iq, t.row ≠ r) :
    entryOf ((List.range n).flatMap f) r c = entryOf (f i) r c := by
  induction n with
  | zero => omega
  | succ m ih =>
    rw [flatMap_range_append, entryOf_append]
    rcases Nat.lt_succ_iff_lt_or_eq.mp hi with h | h
    · rw [ih h (fun iq h1 h2 => hrow iq (Nat.lt_succ_of_lt h1) h2)]
      rw [entryOf_eq_zero (f m) r c (hrow m (Nat.lt_succ_self m) (by omega))]
      ring
    · subst h
      rw [entryOf_eq_zero ((List.range i).flatMap f) r c, zero_add]
      intro t ht
      rcases List.mem_flatMap.mp ht with ⟨iq, hiq, htq⟩
      exact hrow iq (Nat.lt_succ_of_lt (List.mem_range.mp hiq))
        (by have := List.mem_range.mp hiq; omega) t htq

theorem entryOf_flatMap_sum (f : Nat → List Triplet) (n r c : Nat) :
    entryOf ((List.range n).flatMap f) r c
      = ((List.range n).map (fun k => entryOf (f k) r c)).sum := by
  induction n with
  | zero => simp [entryOf]
  | succ m ih =>
    rw [flatMap_range_append, entryOf_append, ih, List.range_succ]
    simp

/-! ## Lemmas on the affine constraint assembly -/

theorem mem_sideTriplets (Dsize r : Nat) (f : Int) (v0 v1 : Nat) (e : Vec3)
    (t : Triplet) (ht : t ∈ sideTriplets Dsize r f v0 v1 e) :
    t.row = r ∧ f ≠ -1 := by
  unfold sideTriplets at ht
  by_cases hf : f = -1
  · rw [if_pos hf] at ht
    simp at ht
  · rw [if_neg hf] at ht
    rcases List.mem_flatMap.mp ht with ⟨k, _, htk⟩
    simp at htk
    refine ⟨?_, hf⟩
    rcases htk with h | h | h <;> rw [h]

theorem bendCount_eq (EF : List (Int × Int)) : ∀ r, bendCount r EF
    = r + (EF.filter (fun p => p.1 ≠ -1 ∧ p.2 ≠ -1)).length := by
  induction EF with
  | nil => intro r; simp [bendCount]
  | cons p rest ih =>
    intro r
    by_cases h : p.1 = -1 ∨ p.2 = -1
    · rw [bendCount, if_pos h, ih, List.filter_cons]
      have : ¬ (p.1 ≠ -1 ∧ p.2 ≠ -1) := by tauto
      simp [this]
    · rw [bendCount, if_neg h, ih, List.filter_cons]
      have : p.1 ≠ -1 ∧ p.2 ≠ -1 := by tauto
      simp [this]
      omega

theorem CRowsOf_eq (EF : List (Int × Int)) : CRowsOf EF = 2 * EF.length := by
  have key : ∀ (l : List (Int × Int)) (a : Nat),
      l.foldl (fun acc _ => acc + 1 + 1) a = a + 2 * l.length := by
    intro l
    induction l with
    | nil => intro a; simp
    | cons p rest ih =>
      intro a
      simp [List.foldl_cons, ih]
      omega
  simpa using key EF 0

/-- Rows written by the block of edge `i` in `CTripletsOf` are `2*i` (when
side 0 exists) or `2*i + 1` (when side 1 exists). -/
theorem mem_CTripletsOf_block (V : List Vec3) (Dsize : Nat) (EF : List (Int × Int))
    (EV : List (Nat × Nat)) (i : Nat) (t : Triplet)
    (ht : t ∈ sideTriplets Dsize (2 * i) (EF.getD i (-1, -1)).1
            (EV.getD i (0, 0)).1 (EV.getD i (0, 0)).2 (edgeVector V (EV.getD i (0, 0))) ++
          sideTriplets Dsize (2 * i + 1) (EF.getD i (-1, -1)).2
            (EV.getD i (0, 0)).1 (EV.getD i (0, 0)).2 (edgeVector V (EV.getD i (0, 0)))) :
    (t.row = 2 * i ∧ (EF.getD i (-1, -1)).1 ≠ -1) ∨
    (t.row = 2 * i + 1 ∧ (EF.getD i (-1, -1)).2 ≠ -1) := by
  rcases List.mem_append.mp ht with h | h
  · exact Or.inl (mem_sideTriplets _ _ _ _ _ _ _ h)
  · exact Or.inr (mem_sideTriplets _ _ _ _ _ _ _ h)

/-! ## Claim theorems: affine_maps_deform.h -/

/-- C7: the energy matrix assembled by `affine_maps_precompute` has exactly
`3*F + (number of edges with both incident faces present)` rows: `3*F`
identity rows plus one bending row per interior edge; in particular zero
bending rows when no edge has two faces, and exactly `3*F` rows for an
all-boundary mesh. -/
theorem energy_rows_count (V : List Vec3) (D : List Nat) (F : List (List Nat))
    (EF : List (Int × Int)) (EV : List (Nat × Nat)) :
    (affine_maps_precompute V D F EF EV).ERows
      = 3 * F.length + (EF.filter (fun p => p.1 ≠ -1 ∧ p.2 ≠ -1)).length := by
  simp [affine_maps_precompute, bendCount_eq]

/-- C3 counterexample: on a single triangle (three edges, each with exactly
one incident face), the claimed row count is `2*0 + 3 = 3`, but the
assembled constraint matrix has `6` rows: the row counter `CRows` is
advanced for both sides of every edge, present or not. -/
theorem constraint_rows_triangle_counterexample :
    (affine_maps_precompute triV triD triF triEF triEV).CRows ≠
      2 * (triEF.filter (fun p => p.1 ≠ -1 ∧ p.2 ≠ -1)).length
        + (triEF.filter (fun p =>
            (p.1 = -1 ∧ p.2 ≠ -1) ∨ (p.1 ≠ -1 ∧ p.2 = -1))).length := by
  decide

/-- C3 amended: the constraint matrix has exactly `2 * (number of edges)`
rows — two per edge whether or not each face slot is present — and the row
allotted to a missing boundary side is identically zero (no triplet is
pushed for it) rather than omitted. -/
theorem constraint_rows_two_per_side (V : List Vec3) (D : List Nat)
    (F : List (List Nat)) (EF : List (Int × Int)) (EV : List (Nat × Nat)) :
    (affine_maps_precompute V D F EF EV).CRows = 2 * EF.length ∧
    (∀ i j, i < EF.length → j < 2 → sideEntry (EF.getD i (-1, -1)) j = -1 →
      ∀ c, entryOf (affine_maps_precompute V D F EF EV).CTriplets (2 * i + j) c = 0) := by
  constructor
  · simpa [affine_maps_precompute] using CRowsOf_eq EF
  · intro i j hi hj hside c
    apply entryOf_eq_zero
    intro t ht
    simp only [affine_maps_precompute, CTripletsOf] at ht
    rcases List.mem_flatMap.mp ht with ⟨iq, hiq, htq⟩
    have hiqlt := List.mem_range.mp hiq
    intro hr
    rcases mem_CTripletsOf_block V D.length EF EV iq t htq with ⟨hrow, hex⟩ | ⟨hrow, hex⟩
    · have hij : iq = i ∧ j = 0 := by omega
      rcases hij with ⟨h1, h2⟩
      subst h1; subst h2
      exact hex (by simpa [sideEntry] using hside)
    · have hij : iq = i ∧ j = 1 := by omega
      rcases hij with ⟨h1, h2⟩
      subst h1; subst h2
      exact hex (by simpa [sideEntry] using hside)

/-- Witness for `constraint_rows_two_per_side`: the missing side 1 of edge 0
of the triangle occupies row 1, whose entry in column 0 is zero. -/
theorem constraint_rows_two_per_side_witness :
    (0 : Nat) < triEF.length ∧ (1 : Nat) < 2 ∧
    sideEntry (triEF.getD 0 (-1, -1)) 1 = -1 ∧
    entryOf (affine_maps_precompute triV triD triF triEF triEV).CTriplets 1 0 = 0 :=
  ⟨by decide, by decide, by decide,
   (constraint_rows_two_per_side triV triD triF triEF triEV).2 0 1
     (by decide) (by decide) (by decide) 0⟩

/-- C1 (evaluation of the defect): on a single triangle with the identity
deformation — per-face maps equal to the identity, vertex coordinates equal
to the original ones — constraint row 0 times the unknown vector of axis 0
equals `4` (four times the x component of edge 0), not `0` as the claim
states.  The vertex `±1` triplets are pushed once per coordinate `k`
(summing to `∓3`) and carry `-1` on the edge source and `+1` on the edge
target, so each present-side row evaluates to `A·e + 3·(v1 - v0)`; on the
identity deformation that is `4·e`, which vanishes only for a zero edge. -/
theorem identity_deformation_row_value :
    matVecRow (affine_maps_precompute triV triD triF triEF triEV).CTriplets
      (affine_maps_precompute triV triD triF triEF triEV).NumVars
      (identityUnknown triV 1 0) 0 = 4 := by
  rw [matVecRow_eq_rowApply _ _ _ _ (by decide)]
  norm_num [rowApply, affine_maps_precompute, CTripletsOf, triEF, triEV, triV,
    triD, triF, sideTriplets, edgeVector, vsub, vget, v3zero, identityUnknown,
    List.filter_cons, List.range_succ]

/-- C2 (evaluation of the defect): `affine_maps_deform` receives its output
matrices `A` and `q` by value, so after the call the caller's matrices are
unchanged (here still empty) while the computed blocks — the leading
`3*FSize` rows and the trailing `VSize` rows of the raw solve result — only
ever existed in locals discarded at return. -/
theorem deform_outputs_unobservable :
    deformEvalOutcome.callerA = [] ∧
    deformEvalOutcome.callerq = [] ∧
    deformEvalOutcome.localA = [[0, 0, 0], [1, 1, 1], [2, 2, 2]] ∧
    deformEvalOutcome.localq = [[3, 3, 3], [4, 4, 4], [5, 5, 5]] ∧
    ([[0, 0, 0], [1, 1, 1], [2, 2, 2]] : List (List ℚ)) ≠ [] :=
  ⟨rfl, rfl, rfl, rfl, by simp⟩

/-! ## List-indexing helper lemmas -/

theorem getD_append_left {α : Type} (l1 l2 : List α) (k : Nat) (d : α)
    (h : k < l1.length) : (l1 ++ l2).getD k d = l1.getD k d := by
  simp [List.getD_eq_getElem?_getD, List.getElem?_append_left h]

theorem getD_append_right {α : Type} (l1 l2 : List α) (k : Nat) (d : α)
    (h : l1.length ≤ k) : (l1 ++ l2).getD k d = l2.getD (k - l1.length) d := by
  simp [List.getD_eq_getElem?_getD, List.getElem?_append_right h]

theorem length_flatMap_blocks3 {α β : Type} (l : List α) (f : α → List β)
    (hf : ∀ a, (f a).length = 3) : (l.flatMap f).length = 3 * l.length := by
  induction l with
  | nil => simp
  | cons a rest ih =>
    simp only [List.flatMap_cons, List.length_append, ih, hf, List.length_cons]
    omega

theorem flatMap_blocks3_getD {α β : Type} (l : List α) (f : α → List β) (da : α) (db : β)
    (hf : ∀ a, (f a).length = 3) :
    ∀ i j, i < l.length → j < 3 →
      (l.flatMap f).getD (3 * i + j) db = (f (l.getD i da)).getD j db := by
  induction l with
  | nil =>
    intro i j hi _
    simp at hi
  | cons a rest ih =>
    intro i j hi hj
    cases i with
    | zero =>
      simp only [List.flatMap_cons, Nat.mul_zero, Nat.zero_add, List.getD_cons_zero]
      exact getD_append_left _ _ _ _ (by rw [hf]; omega)
    | succ n =>
      simp only [List.flatMap_cons, List.getD_cons_succ]
      rw [getD_append_right _ _ _ _ (by rw [hf]; omega)]
      have harg : 3 * (n + 1) + j - (f a).length = 3 * n + j := by rw [hf]; omega
      rw [harg]
      exact ih n j (by simpa using hi) hj

theorem coords_getD (v : Vec3) (j : Nat) (hj : j < 3) :
    ([v.x, v.y, v.z].getD j 0) = vget v j := by
  interval_cases j <;> simp [vget]

theorem getD_map_range {β : Type} (f : Nat → β) (n r : Nat) (d : β) (h : r < n) :
    ((List.range n).map f).getD r d = f r := by
  simp [List.getD_eq_getElem?_getD, List.getElem?_map, List.getElem?_range h]

theorem getD_range (n r : Nat) (d : Nat) (h : r < n) : (List.range n).getD r d = r := by
  simp [List.getD_eq_getElem?_getD, List.getElem?_range h]

theorem getD_replicate_zero (n i : Nat) : (List.replicate n (0 : ℚ)).getD i 0 = 0 := by
  simp only [List.getD_eq_getElem?_getD, List.getElem?_replicate]
  split <;> rfl

theorem sum_map_range_eq_finset (f : Nat → ℚ) (n : Nat) :
    ((List.range n).map f).sum = ∑ k ∈ Finset.range n, f k := by
  induction n with
  | zero => simp
  | succ m ih =>
    rw [List.range_succ]
    simp [ih, Finset.sum_range_succ]

theorem vget_vsub (a b : Vec3) (j : Nat) : vget (vsub a b) j = vget a j - vget b j := by
  unfold vget vsub
  split_ifs <;> rfl

/-! ## Lemmas on OffsetMeshTraits -/

theorem initial_solution_coord (s : OffsetMeshTraits) (v j : Nat)
    (hv : v < s.VOrig.length) (hj : j < 3) :
    s.initial_solution.getD (3 * v + j) 0 = vget (s.VOrig.getD v v3zero) j := by
  unfold OffsetMeshTraits.initial_solution
  rw [getD_append_left _ _ _ _
    (by rw [length_flatMap_blocks3 s.VOrig (fun v => [v.x, v.y, v.z]) (fun a => rfl)]; omega)]
  rw [flatMap_blocks3_getD s.VOrig (fun v => [v.x, v.y, v.z]) v3zero 0 (fun a => rfl) v j hv hj]
  exact coords_getD _ _ hj

theorem initial_solution_scale (s : OffsetMeshTraits) (i : Nat) :
    s.initial_solution.getD (3 * s.VOrig.length + i) 0 = 0 := by
  unfold OffsetMeshTraits.initial_solution
  rw [getD_append_right _ _ _ _
    (by rw [length_flatMap_blocks3 s.VOrig (fun v => [v.x, v.y, v.z]) (fun a => rfl)]; omega)]
  exact getD_replicate_zero _ _

theorem mem_offsetEdgeTriplets (Vrows i : Nat) (ev : Nat × Nat) (e : Vec3) (t : Triplet)
    (ht : t ∈ offsetEdgeTriplets Vrows i ev e) :
    ∃ j, j < 3 ∧ t.row = 3 * i + j ∧
      (t.col = 3 * ev.1 + j ∨ t.col = 3 * ev.2 + j ∨ t.col = 3 * Vrows + i) := by
  unfold offsetEdgeTriplets at ht
  rcases List.mem_flatMap.mp ht with ⟨j, hj, htj⟩
  have hj3 := List.mem_range.mp hj
  simp only [List.mem_cons, List.mem_singleton] at htj
  refine ⟨j, hj3, ?_⟩
  rcases htj with h | h | h | h
  · rw [h]; exact ⟨rfl, Or.inl rfl⟩
  · rw [h]; exact ⟨rfl, Or.inr (Or.inl rfl)⟩
  · rw [h]; exact ⟨rfl, Or.inr (Or.inr rfl)⟩
  · simp at h

theorem getD_mem {α : Type} (l : List α) (i : Nat) (d : α) (h : i < l.length) :
    l.getD i d ∈ l := by
  rw [List.getD_eq_getElem?_getD, List.getElem?_eq_getElem h]
  exact List.getElem_mem h

/-! ## Claim theorems: OffsetMeshTraits.h -/

/-- C4 counterexample: `OffsetMeshTraits::init` called with `EDGE_OFFSET` on
a concrete mesh returns normally — `init` has no failure path at all — and
leaves every energy structure at its default zero size, which is exactly
what the claim says must not happen. -/
theorem unsupported_offset_init_empty_eval :
    (OffsetMeshTraits.init triV triD triF triEV OffsetType.EDGE_OFFSET 1).EVec = [] ∧
    (OffsetMeshTraits.init triV triD triF triEV OffsetType.EDGE_OFFSET 1).JERows = [] ∧
    (OffsetMeshTraits.init triV triD triF triEV OffsetType.EDGE_OFFSET 1).JECols = [] ∧
    (OffsetMeshTraits.init triV triD triF triEV OffsetType.EDGE_OFFSET 1).JEVals = [] :=
  ⟨rfl, rfl, rfl, rfl⟩

/-- C4 amended: for `EDGE_OFFSET` and `FACE_OFFSET` the `init` branches are
empty, so `init` returns normally with the energy residual and
energy-Jacobian structures zero-sized, while the constraint structures are
still fully assembled. -/
theorem unsupported_offset_init_no_failure (VOrig : List Vec3) (D : List Nat)
    (F : List (List Nat)) (EV : List (Nat × Nat)) (oT : OffsetType) (d : ℚ)
    (h : oT = OffsetType.EDGE_OFFSET ∨ oT = OffsetType.FACE_OFFSET) :
    (OffsetMeshTraits.init VOrig D F EV oT d).EVec = [] ∧
    (OffsetMeshTraits.init VOrig D F EV oT d).JERows = [] ∧
    (OffsetMeshTraits.init VOrig D F EV oT d).JECols = [] ∧
    (OffsetMeshTraits.init VOrig D F EV oT d).JEVals = [] ∧
    (OffsetMeshTraits.init VOrig D F EV oT d).CVec.length = 3 * EV.length ∧
    (OffsetMeshTraits.init VOrig D F EV oT d).offsetTriplets = offsetTriListOf VOrig EV := by
  have hne : oT ≠ OffsetType.VERTEX_OFFSET := by
    rcases h with h | h <;> subst h <;> simp
  refine ⟨?_, ?_, ?_, ?_, ?_, rfl⟩ <;> simp [OffsetMeshTraits.init, hne]

/-- Witness for `unsupported_offset_init_no_failure` on the triangle mesh
and `FACE_OFFSET`. -/
theorem unsupported_offset_init_no_failure_witness :
    (OffsetType.FACE_OFFSET = OffsetType.EDGE_OFFSET ∨
      OffsetType.FACE_OFFSET = OffsetType.FACE_OFFSET) ∧
    ((OffsetMeshTraits.init triV triD triF triEV OffsetType.FACE_OFFSET 1).EVec = [] ∧
     (OffsetMeshTraits.init triV triD triF triEV OffsetType.FACE_OFFSET 1).JERows = [] ∧
     (OffsetMeshTraits.init triV triD triF triEV OffsetType.FACE_OFFSET 1).JECols = [] ∧
     (OffsetMeshTraits.init triV triD triF triEV OffsetType.FACE_OFFSET 1).JEVals = [] ∧
     (OffsetMeshTraits.init triV triD triF triEV OffsetType.FACE_OFFSET 1).CVec.length
        = 3 * triEV.length ∧
     (OffsetMeshTraits.init triV triD triF triEV OffsetType.FACE_OFFSET 1).offsetTriplets
        = offsetTriListOf triV triEV) :=
  ⟨Or.inr rfl,
   unsupported_offset_init_no_failure triV triD triF triEV OffsetType.FACE_OFFSET 1 (Or.inr rfl)⟩

/-- C6: for the `VERTEX_OFFSET` type, after any call of `update_jacobian`
every energy-Jacobian value satisfies `JEVals(3*i+j) = 2*VOrig(i,j)`; the
values read only the fixed original coordinates, so any two iterates give
identical energy-Jacobian values. -/
theorem vertex_offset_jacobian_constant (s : OffsetMeshTraits) (x1 x2 : List ℚ)
    (i j : Nat) (hT : s.oType = OffsetType.VERTEX_OFFSET)
    (hi : i < s.VOrig.length) (hj : j < 3) :
    ((s.update_jacobian x1).JEVals).getD (3 * i + j) 0
        = 2 * vget (s.VOrig.getD i v3zero) j ∧
    (s.update_jacobian x1).JEVals = (s.update_jacobian x2).JEVals := by
  constructor
  · simp only [OffsetMeshTraits.update_jacobian, if_pos hT]
    rw [flatMap_blocks3_getD (List.range s.VOrig.length)
        (fun a => (List.range 3).map (fun jq => 2 * vget (s.VOrig.getD a v3zero) jq)) 0 0
        (fun a => by simp) i j (by simpa using hi) hj]
    rw [getD_range _ _ _ hi]
    exact getD_map_range _ _ _ _ hj
  · simp only [OffsetMeshTraits.update_jacobian, if_pos hT]

/-- Witness for `vertex_offset_jacobian_constant`: a one-vertex state built
by `init`, evaluated at entry `(i, j) = (0, 1)` on two different iterates. -/
theorem vertex_offset_jacobian_constant_witness :
    (OffsetMeshTraits.init [⟨5, 7, 9⟩] [] [] [] OffsetType.VERTEX_OFFSET 1).oType
        = OffsetType.VERTEX_OFFSET ∧
    (0 : Nat) < (OffsetMeshTraits.init [⟨5, 7, 9⟩] [] [] []
        OffsetType.VERTEX_OFFSET 1).VOrig.length ∧
    (1 : Nat) < 3 ∧
    ((((OffsetMeshTraits.init [⟨5, 7, 9⟩] [] [] [] OffsetType.VERTEX_OFFSET 1).update_jacobian
        [1, 2, 3, 4]).JEVals).getD 1 0
          = 2 * vget ((OffsetMeshTraits.init [⟨5, 7, 9⟩] [] [] []
              OffsetType.VERTEX_OFFSET 1).VOrig.getD 0 v3zero) 1 ∧
     ((OffsetMeshTraits.init [⟨5, 7, 9⟩] [] [] [] OffsetType.VERTEX_OFFSET 1).update_jacobian
        [1, 2, 3, 4]).JEVals
          = ((OffsetMeshTraits.init [⟨5, 7, 9⟩] [] [] [] OffsetType.VERTEX_OFFSET 1).update_jacobian
              [40, 50, 60, 70]).JEVals) :=
  ⟨rfl, by simp [OffsetMeshTraits.init], by decide,
   vertex_offset_jacobian_constant _ [1, 2, 3, 4] [40, 50, 60, 70] 0 1 rfl
     (by simp [OffsetMeshTraits.init]) (by decide)⟩

/-- C8: for the `VERTEX_OFFSET` type, `update_energy(x)` sets the residual
of each vertex `i` to `‖V_i - Vp_i‖² - d²` where `V_i` is the fixed
original position and `Vp_i` is the position block `x.segment(3*i, 3)` of
the iterate; and on the vector produced by `initial_solution` with `d = 1`
every residual entry equals `-1`. -/
theorem vertex_offset_energy_residual :
    (∀ (s : OffsetMeshTraits) (x : List ℚ) (i : Nat),
      s.oType = OffsetType.VERTEX_OFFSET → i < s.VOrig.length →
      ((s.update_energy x).EVec).getD i 0
        = sqnorm (vsub (s.VOrig.getD i v3zero)
            ⟨x.getD (3 * i) 0, x.getD (3 * i + 1) 0, x.getD (3 * i + 2) 0⟩) - s.d * s.d) ∧
    (∀ (VOrig : List Vec3) (D : List Nat) (F : List (List Nat)) (EV : List (Nat × Nat))
       (i : Nat), i < VOrig.length →
      (((OffsetMeshTraits.init VOrig D F EV OffsetType.VERTEX_OFFSET 1).update_energy
          ((OffsetMeshTraits.init VOrig D F EV
              OffsetType.VERTEX_OFFSET 1).initial_solution)).EVec).getD i 0 = -1) := by
  have hgen : ∀ (s : OffsetMeshTraits) (x : List ℚ) (i : Nat),
      s.oType = OffsetType.VERTEX_OFFSET → i < s.VOrig.length →
      ((s.update_energy x).EVec).getD i 0
        = sqnorm (vsub (s.VOrig.getD i v3zero)
            ⟨x.getD (3 * i) 0, x.getD (3 * i + 1) 0, x.getD (3 * i + 2) 0⟩) - s.d * s.d := by
    intro s x i hT hi
    simp only [OffsetMeshTraits.update_energy, if_pos hT]
    rw [getD_map_range _ _ _ _ hi]
    simp only [currVOf]
    rw [getD_map_range _ _ _ _ hi]
  refine ⟨hgen, ?_⟩
  intro VOrig D F EV i hi
  rw [hgen _ _ i rfl hi]
  have h0 := initial_solution_coord
    (OffsetMeshTraits.init VOrig D F EV OffsetType.VERTEX_OFFSET 1) i 0 hi (by decide)
  have h1 := initial_solution_coord
    (OffsetMeshTraits.init VOrig D F EV OffsetType.VERTEX_OFFSET 1) i 1 hi (by decide)
  have h2 := initial_solution_coord
    (OffsetMeshTraits.init VOrig D F EV OffsetType.VERTEX_OFFSET 1) i 2 hi (by decide)
  rw [show 3 * i = 3 * i + 0 by omega, h0, h1, h2]
  simp [vget, sqnorm, vsub]
  norm_num [OffsetMeshTraits.init]

/-- Witness for `vertex_offset_energy_residual`: a two-vertex state built by
`init` with `d = 2`, evaluated at vertex `1` of the iterate
`x = [1, 1, 1, 9, 8, 7, 0]`; and the initial-solution scenario on the
triangle mesh at vertex `2`. -/
theorem vertex_offset_energy_residual_witness :
    ((OffsetMeshTraits.init [⟨0, 0, 0⟩, ⟨9, 8, 7⟩] [] [] [(0, 1)]
        OffsetType.VERTEX_OFFSET 2).oType = OffsetType.VERTEX_OFFSET ∧
     (1 : Nat) < (OffsetMeshTraits.init [⟨0, 0, 0⟩, ⟨9, 8, 7⟩] [] [] [(0, 1)]
        OffsetType.VERTEX_OFFSET 2).VOrig.length ∧
     (((OffsetMeshTraits.init [⟨0, 0, 0⟩, ⟨9, 8, 7⟩] [] [] [(0, 1)]
          OffsetType.VERTEX_OFFSET 2).update_energy [1, 1, 1, 9, 8, 7, 0]).EVec).getD 1 0
       = sqnorm (vsub ((OffsetMeshTraits.init [⟨0, 0, 0⟩, ⟨9, 8, 7⟩] [] [] [(0, 1)]
            OffsetType.VERTEX_OFFSET 2).VOrig.getD 1 v3zero)
           ⟨([(1 : ℚ), 1, 1, 9, 8, 7, 0]).getD (3 * 1) 0,
            ([(1 : ℚ), 1, 1, 9, 8, 7, 0]).getD (3 * 1 + 1) 0,
            ([(1 : ℚ), 1, 1, 9, 8, 7, 0]).getD (3 * 1 + 2) 0⟩)
         - (OffsetMeshTraits.init [⟨0, 0, 0⟩, ⟨9, 8, 7⟩] [] [] [(0, 1)]
            OffsetType.VERTEX_OFFSET 2).d
           * (OffsetMeshTraits.init [⟨0, 0, 0⟩, ⟨9, 8, 7⟩] [] [] [(0, 1)]
              OffsetType.VERTEX_OFFSET 2).d) ∧
    ((2 : Nat) < triV.length ∧
     (((OffsetMeshTraits.init triV triD triF triEV OffsetType.VERTEX_OFFSET 1).update_energy
        ((OffsetMeshTraits.init triV triD triF triEV
            OffsetType.VERTEX_OFFSET 1).initial_solution)).EVec).getD 2 0 = -1) :=
  ⟨⟨rfl, by simp [OffsetMeshTraits.init],
    vertex_offset_energy_residual.1 _ [1, 1, 1, 9, 8, 7, 0] 1 rfl
      (by simp [OffsetMeshTraits.init])⟩,
   ⟨by decide,
    vertex_offset_energy_residual.2 triV triD triF triEV 2 (by decide)⟩⟩

/-- C9: `update_constraints` computes the residual as the constant
constraint matrix times the iterate; applied to the vector produced by
`initial_solution` (original positions, zero edge scales), entry `3*i+j` of
the residual — the `j`-th component of edge `i`'s row block — equals the
`j`-th component of the original edge displacement
`VOrig.row(EV(i,1)) - VOrig.row(EV(i,0))`. -/
theorem constraint_residual_initial_solution
    (VOrig : List Vec3) (D : List Nat) (F : List (List Nat)) (EV : List (Nat × Nat))
    (oT : OffsetType) (d : ℚ) (i j : Nat)
    (hvalid : ∀ p ∈ EV, p.1 < VOrig.length ∧ p.2 < VOrig.length)
    (hi : i < EV.length) (hj : j < 3) :
    (((OffsetMeshTraits.init VOrig D F EV oT d).update_constraints
        ((OffsetMeshTraits.init VOrig D F EV oT d).initial_solution)).CVec).getD (3 * i + j) 0
      = vget (vsub (VOrig.getD (EV.getD i (0, 0)).2 v3zero)
                   (VOrig.getD (EV.getD i (0, 0)).1 v3zero)) j := by
  have hS : (OffsetMeshTraits.init VOrig D F EV oT d).offsetTriplets
      = offsetTriListOf VOrig EV := rfl
  have hX : (OffsetMeshTraits.init VOrig D F EV oT d).xSize
      = 3 * VOrig.length + EV.length := rfl
  have hE : (OffsetMeshTraits.init VOrig D F EV oT d).EV = EV := rfl
  simp only [OffsetMeshTraits.update_constraints, hS, hX, hE]
  rw [getD_map_range _ _ _ _ (by omega)]
  have hcols : ∀ t ∈ offsetTriListOf VOrig EV, t.col < 3 * VOrig.length + EV.length := by
    intro t ht
    unfold offsetTriListOf at ht
    rcases List.mem_flatMap.mp ht with ⟨iq, hiq, htq⟩
    have hiqlt := List.mem_range.mp hiq
    rcases mem_offsetEdgeTriplets _ _ _ _ _ htq with ⟨jq, hjq, _, hcol⟩
    have hev := hvalid (EV.getD iq (0, 0)) (getD_mem EV iq (0, 0) hiqlt)
    rcases hcol with h | h | h <;> omega
  rw [matVecRow_eq_rowApply _ _ _ _ hcols]
  unfold offsetTriListOf
  rw [rowApply_flatMap_single _ EV.length i (3 * i + j) _ hi ?houter]
  case houter =>
    intro iq _ hne t ht
    rcases mem_offsetEdgeTriplets _ _ _ _ _ ht with ⟨jq, hjq, hrow, _⟩
    omega
  unfold offsetEdgeTriplets
  rw [rowApply_flatMap_single _ 3 j (3 * i + j) _ hj ?hinner]
  case hinner =>
    intro jq _ hne t ht
    simp only [List.mem_cons, List.not_mem_nil, or_false] at ht
    rcases ht with h | h | h <;> rw [h] <;> show 3 * i + jq ≠ 3 * i + j <;> omega
  have hmem := getD_mem EV i (0, 0) hi
  have hc1 := initial_solution_coord (OffsetMeshTraits.init VOrig D F EV oT d)
    (EV.getD i (0, 0)).1 j (hvalid _ hmem).1 hj
  have hc2 := initial_solution_coord (OffsetMeshTraits.init VOrig D F EV oT d)
    (EV.getD i (0, 0)).2 j (hvalid _ hmem).2 hj
  have hsc := initial_solution_scale (OffsetMeshTraits.init VOrig D F EV oT d) i
  have hVr : (OffsetMeshTraits.init VOrig D F EV oT d).VOrig = VOrig := rfl
  rw [hVr] at hc1 hc2 hsc
  rw [rowApply_cons_eq _ _ _ _ rfl, rowApply_cons_eq _ _ _ _ rfl,
      rowApply_cons_eq _ _ _ _ rfl, rowApply_nil]
  show (-1 : ℚ) * ((OffsetMeshTraits.init VOrig D F EV oT d).initial_solution.getD
        (3 * (EV.getD i (0, 0)).1 + j) 0)
      + ((1 : ℚ) * ((OffsetMeshTraits.init VOrig D F EV oT d).initial_solution.getD
          (3 * (EV.getD i (0, 0)).2 + j) 0)
        + (-(vget (vsub (VOrig.getD (EV.getD i (0, 0)).2 v3zero)
              (VOrig.getD (EV.getD i (0, 0)).1 v3zero)) j)
            * ((OffsetMeshTraits.init VOrig D F EV oT d).initial_solution.getD
                (3 * VOrig.length + i) 0) + 0))
      = vget (vsub (VOrig.getD (EV.getD i (0, 0)).2 v3zero)
              (VOrig.getD (EV.getD i (0, 0)).1 v3zero)) j
  rw [hc1, hc2, hsc, vget_vsub]
  ring

theorem Triplet.row_mk (r c : Nat) (v : ℚ) : (Triplet.mk r c v).row = r := rfl

theorem Triplet.col_mk (r c : Nat) (v : ℚ) : (Triplet.mk r c v).col = c := rfl

theorem Triplet.value_mk (r c : Nat) (v : ℚ) : (Triplet.mk r c v).value = v := rfl

/-- Witness for `constraint_residual_initial_solution`: row block of edge 0
of the triangle mesh, component 0, on the initial solution. -/
theorem constraint_residual_initial_solution_witness :
    (∀ p ∈ triEV, p.1 < triV.length ∧ p.2 < triV.length) ∧
    (0 : Nat) < triEV.length ∧ (0 : Nat) < 3 ∧
    (((OffsetMeshTraits.init triV triD triF triEV OffsetType.VERTEX_OFFSET 1).update_constraints
        ((OffsetMeshTraits.init triV triD triF triEV
            OffsetType.VERTEX_OFFSET 1).initial_solution)).CVec).getD (3 * 0 + 0) 0
      = vget (vsub (triV.getD (triEV.getD 0 (0, 0)).2 v3zero)
                   (triV.getD (triEV.getD 0 (0, 0)).1 v3zero)) 0 :=
  ⟨by decide, by decide, by decide,
   constraint_residual_initial_solution triV triD triF triEV OffsetType.VERTEX_OFFSET 1 0 0
     (by decide) (by decide) (by decide)⟩

/-- Entry of a present side's row in the column of the edge's first
endpoint vertex: the `-1` triplet is pushed once per `k < 3`, so
`setFromTriplets` sums them to `-3`. -/
theorem entryOf_sideTriplets_v0 (Dsize r : Nat) (f : Int) (v0 v1 : Nat) (e : Vec3)
    (hfm : f ≠ -1) (hflt : f.toNat < Dsize) (hvne : v0 ≠ v1) :
    entryOf (sideTriplets Dsize r f v0 v1 e) r (3 * Dsize + v0) = -3 := by
  unfold sideTriplets
  rw [if_neg hfm, entryOf_flatMap_sum]
  have hval : ∀ k ∈ List.range 3,
      entryOf [⟨r, 3 * f.toNat + k, vget e k⟩, ⟨r, 3 * Dsize + v0, -1⟩,
        ⟨r, 3 * Dsize + v1, 1⟩] r (3 * Dsize + v0) = -1 := by
    intro k hk
    have hk3 := List.mem_range.mp hk
    have h1 : ¬ (3 * f.toNat + k = 3 * Dsize + v0) := by omega
    have h3 : ¬ (3 * Dsize + v1 = 3 * Dsize + v0) := by omega
    simp [entryOf_cons, entryOf_nil, h1, h3]
  rw [List.map_congr_left hval]
  norm_num [List.range_succ]

/-- Entry of a present side's row in the column of the edge's second
endpoint vertex: the `+1` triplets sum to `3`. -/
theorem entryOf_sideTriplets_v1 (Dsize r : Nat) (f : Int) (v0 v1 : Nat) (e : Vec3)
    (hfm : f ≠ -1) (hflt : f.toNat < Dsize) (hvne : v0 ≠ v1) :
    entryOf (sideTriplets Dsize r f v0 v1 e) r (3 * Dsize + v1) = 3 := by
  unfold sideTriplets
  rw [if_neg hfm, entryOf_flatMap_sum]
  have hval : ∀ k ∈ List.range 3,
      entryOf [⟨r, 3 * f.toNat + k, vget e k⟩, ⟨r, 3 * Dsize + v0, -1⟩,
        ⟨r, 3 * Dsize + v1, 1⟩] r (3 * Dsize + v1) = 1 := by
    intro k hk
    have hk3 := List.mem_range.mp hk
    have h1 : ¬ (3 * f.toNat + k = 3 * Dsize + v1) := by omega
    have h2 : ¬ (3 * Dsize + v0 = 3 * Dsize + v1) := by omega
    simp [entryOf_cons, entryOf_nil, h1, h2]
  rw [List.map_congr_left hval]
  norm_num [List.range_succ]

/-- Entry of a present side's row in the `k`-th face-map column of its
face: the edge vector's `k`-th coordinate, pushed exactly once. -/
theorem entryOf_sideTriplets_map (Dsize r : Nat) (f : Int) (v0 v1 : Nat) (e : Vec3)
    (k : Nat) (hfm : f ≠ -1) (hflt : f.toNat < Dsize) (hk : k < 3) :
    entryOf (sideTriplets Dsize r f v0 v1 e) r (3 * f.toNat + k) = vget e k := by
  unfold sideTriplets
  rw [if_neg hfm, entryOf_flatMap_sum]
  have hval : ∀ kq ∈ List.range 3,
      entryOf [⟨r, 3 * f.toNat + kq, vget e kq⟩, ⟨r, 3 * Dsize + v0, -1⟩,
        ⟨r, 3 * Dsize + v1, 1⟩] r (3 * f.toNat + k)
        = if kq = k then vget e kq else 0 := by
    intro kq hkq
    have hkq3 := List.mem_range.mp hkq
    have h2 : ¬ (3 * Dsize + v0 = 3 * f.toNat + k) := by omega
    have h3 : ¬ (3 * Dsize + v1 = 3 * f.toNat + k) := by omega
    by_cases hqk : kq = k
    · subst hqk
      simp [entryOf_cons, entryOf_nil, h2, h3]
    · have h1 : ¬ (3 * f.toNat + kq = 3 * f.toNat + k) := by omega
      simp [entryOf_cons, entryOf_nil, h1, h2, h3, hqk]
  rw [List.map_congr_left hval, sum_map_range_eq_finset]
  rw [Finset.sum_ite_eq' (Finset.range 3) k (fun kq => vget e kq)]
  simp [Finset.mem_range.mpr hk]

/-- In the assembled constraint triplet list, the entries of row `2*i+j`
come only from side `j` of edge `i`. -/
theorem entryOf_CTriplets_side (V : List Vec3) (Dsize : Nat) (EF : List (Int × Int))
    (EV : List (Nat × Nat)) (i j c : Nat) (hi : i < EF.length) (hj : j < 2) :
    entryOf (CTripletsOf V Dsize EF EV) (2 * i + j) c
      = entryOf (sideTriplets Dsize (2 * i + j) (sideEntry (EF.getD i (-1, -1)) j)
          (EV.getD i (0, 0)).1 (EV.getD i (0, 0)).2 (edgeVector V (EV.getD i (0, 0))))
          (2 * i + j) c := by
  unfold CTripletsOf
  rw [entryOf_flatMap_single _ EF.length i (2 * i + j) c hi ?hdisj]
  case hdisj =>
    intro iq _ hne t ht hr
    rcases mem_CTripletsOf_block V Dsize EF EV iq t ht with ⟨hrow, _⟩ | ⟨hrow, _⟩ <;> omega
  rw [entryOf_append]
  interval_cases j
  · have hz : entryOf (sideTriplets Dsize (2 * i + 1) (EF.getD i (-1, -1)).2
        (EV.getD i (0, 0)).1 (EV.getD i (0, 0)).2 (edgeVector V (EV.getD i (0, 0))))
        (2 * i + 0) c = 0 :=
      entryOf_eq_zero _ _ _ (fun t ht => by
        have := (mem_sideTriplets _ _ _ _ _ _ _ ht).1
        omega)
    rw [hz, add_zero]
    exact rfl
  · have hz : entryOf (sideTriplets Dsize (2 * i) (EF.getD i (-1, -1)).1
        (EV.getD i (0, 0)).1 (EV.getD i (0, 0)).2 (edgeVector V (EV.getD i (0, 0))))
        (2 * i + 1) c = 0 :=
      entryOf_eq_zero _ _ _ (fun t ht => by
        have := (mem_sideTriplets _ _ _ _ _ _ _ ht).1
        omega)
    rw [hz, zero_add]
    exact rfl

/-- C10: in the constraint matrix, the row of an existing face side of an
edge carries `-3` in the column of the edge's first endpoint vertex and
`+3` in the column of its second endpoint (the pushed `±1` triplets, one
per coordinate axis, are summed by `setFromTriplets`), while the three
face-map columns of that row hold the original edge vector's coordinates. -/
theorem constraint_matrix_row_entries (V : List Vec3) (D : List Nat) (F : List (List Nat))
    (EF : List (Int × Int)) (EV : List (Nat × Nat)) (i j : Nat)
    (hi : i < EF.length) (hj : j < 2)
    (hfm : sideEntry (EF.getD i (-1, -1)) j ≠ -1)
    (hflt : (sideEntry (EF.getD i (-1, -1)) j).toNat < D.length)
    (hvne : (EV.getD i (0, 0)).1 ≠ (EV.getD i (0, 0)).2) :
    entryOf (affine_maps_precompute V D F EF EV).CTriplets (2 * i + j)
        (3 * D.length + (EV.getD i (0, 0)).1) = -3 ∧
    entryOf (affine_maps_precompute V D F EF EV).CTriplets (2 * i + j)
        (3 * D.length + (EV.getD i (0, 0)).2) = 3 ∧
    ∀ k, k < 3 →
      entryOf (affine_maps_precompute V D F EF EV).CTriplets (2 * i + j)
          (3 * (sideEntry (EF.getD i (-1, -1)) j).toNat + k)
        = vget (edgeVector V (EV.getD i (0, 0))) k := by
  have hCT : (affine_maps_precompute V D F EF EV).CTriplets
      = CTripletsOf V D.length EF EV := rfl
  refine ⟨?_, ?_, ?_⟩
  · rw [hCT, entryOf_CTriplets_side V D.length EF EV i j _ hi hj]
    exact entryOf_sideTriplets_v0 _ _ _ _ _ _ hfm hflt hvne
  · rw [hCT, entryOf_CTriplets_side V D.length EF EV i j _ hi hj]
    exact entryOf_sideTriplets_v1 _ _ _ _ _ _ hfm hflt hvne
  · intro k hk
    rw [hCT, entryOf_CTriplets_side V D.length EF EV i j _ hi hj]
    exact entryOf_sideTriplets_map _ _ _ _ _ _ k hfm hflt hk

/-- Witness for `constraint_matrix_row_entries`: side 0 of edge 0 of the
triangle mesh. -/
theorem constraint_matrix_row_entries_witness :
    ((0 : Nat) < triEF.length ∧ (0 : Nat) < 2 ∧
     sideEntry (triEF.getD 0 (-1, -1)) 0 ≠ -1 ∧
     (sideEntry (triEF.getD 0 (-1, -1)) 0).toNat < triD.length ∧
     (triEV.getD 0 (0, 0)).1 ≠ (triEV.getD 0 (0, 0)).2) ∧
    (entryOf (affine_maps_precompute triV triD triF triEF triEV).CTriplets (2 * 0 + 0)
        (3 * triD.length + (triEV.getD 0 (0, 0)).1) = -3 ∧
     entryOf (affine_maps_precompute triV triD triF triEF triEV).CTriplets (2 * 0 + 0)
        (3 * triD.length + (triEV.getD 0 (0, 0)).2) = 3 ∧
     ∀ k, k < 3 →
       entryOf (affine_maps_precompute triV triD triF triEF triEV).CTriplets (2 * 0 + 0)
          (3 * (sideEntry (triEF.getD 0 (-1, -1)) 0).toNat + k)
         = vget (edgeVector triV (triEV.getD 0 (0, 0))) k) :=
  ⟨⟨by decide, by decide, by decide, by decide, by decide⟩,
   constraint_matrix_row_entries triV triD triF triEF triEV 0 0
     (by decide) (by decide) (by decide) (by decide) (by decide)⟩
